import Mathlib

/-
  Verification development for `generate_index.py`: a batch indexer that scans
  HTML report documents, extracts a display name and a reporting period
  (month, year, canonical month label), and assembles index records.

  The embedding works over `List Char` (one element per Unicode code point,
  matching Python's `str` indexing).  Python regular expressions used by the
  source are translated into deterministic matching functions; each
  translation is justified in a comment next to the definition.  Whitespace
  (`\s`, `str.strip`) is modelled by the ASCII whitespace characters and `\d`
  by ASCII digits; the documents this program processes use only those.
-/

set_option maxHeartbeats 1600000

/-! ## Character classes and case mapping

Python's `str.lower`/`str.capitalize` and `re.IGNORECASE` case-fold ASCII
letters and (for this program's vocabulary) the Cyrillic letters А–Я/Ё.
The two tables below spell the mapping out per character. -/

def lowerChar (c : Char) : Char :=
  match c with
  | 'A' => 'a' | 'B' => 'b' | 'C' => 'c' | 'D' => 'd' | 'E' => 'e'
  | 'F' => 'f' | 'G' => 'g' | 'H' => 'h' | 'I' => 'i' | 'J' => 'j'
  | 'K' => 'k' | 'L' => 'l' | 'M' => 'm' | 'N' => 'n' | 'O' => 'o'
  | 'P' => 'p' | 'Q' => 'q' | 'R' => 'r' | 'S' => 's' | 'T' => 't'
  | 'U' => 'u' | 'V' => 'v' | 'W' => 'w' | 'X' => 'x' | 'Y' => 'y'
  | 'Z' => 'z'
  | 'А' => 'а' | 'Б' => 'б' | 'В' => 'в' | 'Г' => 'г' | 'Д' => 'д'
  | 'Е' => 'е' | 'Ж' => 'ж' | 'З' => 'з' | 'И' => 'и' | 'Й' => 'й'
  | 'К' => 'к' | 'Л' => 'л' | 'М' => 'м' | 'Н' => 'н' | 'О' => 'о'
  | 'П' => 'п' | 'Р' => 'р' | 'С' => 'с' | 'Т' => 'т' | 'У' => 'у'
  | 'Ф' => 'ф' | 'Х' => 'х' | 'Ц' => 'ц' | 'Ч' => 'ч' | 'Ш' => 'ш'
  | 'Щ' => 'щ' | 'Ъ' => 'ъ' | 'Ы' => 'ы' | 'Ь' => 'ь' | 'Э' => 'э'
  | 'Ю' => 'ю' | 'Я' => 'я' | 'Ё' => 'ё'
  | other => other

def upperChar (c : Char) : Char :=
  match c with
  | 'a' => 'A' | 'b' => 'B' | 'c' => 'C' | 'd' => 'D' | 'e' => 'E'
  | 'f' => 'F' | 'g' => 'G' | 'h' => 'H' | 'i' => 'I' | 'j' => 'J'
  | 'k' => 'K' | 'l' => 'L' | 'm' => 'M' | 'n' => 'N' | 'o' => 'O'
  | 'p' => 'P' | 'q' => 'Q' | 'r' => 'R' | 's' => 'S' | 't' => 'T'
  | 'u' => 'U' | 'v' => 'V' | 'w' => 'W' | 'x' => 'X' | 'y' => 'Y'
  | 'z' => 'Z'
  | 'а' => 'А' | 'б' => 'Б' | 'в' => 'В' | 'г' => 'Г' | 'д' => 'Д'
  | 'е' => 'Е' | 'ж' => 'Ж' | 'з' => 'З' | 'и' => 'И' | 'й' => 'Й'
  | 'к' => 'К' | 'л' => 'Л' | 'м' => 'М' | 'н' => 'Н' | 'о' => 'О'
  | 'п' => 'П' | 'р' => 'Р' | 'с' => 'С' | 'т' => 'Т' | 'у' => 'У'
  | 'ф' => 'Ф' | 'х' => 'Х' | 'ц' => 'Ц' | 'ч' => 'Ч' | 'ш' => 'Ш'
  | 'щ' => 'Щ' | 'ъ' => 'Ъ' | 'ы' => 'Ы' | 'ь' => 'Ь' | 'э' => 'Э'
  | 'ю' => 'Ю' | 'я' => 'Я' | 'ё' => 'Ё'
  | other => other

/-- Whitespace as recognized by Python's `\s` and `str.strip` (ASCII part). -/
def isSpaceChar (c : Char) : Bool :=
  c = ' ' || c = '\t' || c = '\n' || c = '\r' || c = '\x0b' || c = '\x0c'

/-- The character class `[_\-\.]` of `humanize_from_filename` (line 121). -/
def isSepChar (c : Char) : Bool :=
  c = '_' || c = '-' || c = '.'

/-- An ASCII single quote (avoids an escape in source text). -/
def squote : Char := Char.ofNat 39

/-- Quote characters accepted by the meta-tag regex class `["\']` (line 85). -/
def isQuoteChar (c : Char) : Bool :=
  c = '"' || c = squote

/-- The character class `[А-ЯA-ZЁ]` of the name regex (line 70, no
IGNORECASE flag on that regex). -/
def isUpperStart (c : Char) : Bool :=
  ('A' ≤ c && c ≤ 'Z') || ('А' ≤ c && c ≤ 'Я') || c = 'Ё'

/-- The character class `[^|<>()]` of the name regex (line 70). -/
def isTailChar (c : Char) : Bool :=
  !(c = '|' || c = '<' || c = '>' || c = '(' || c = ')')

def lowerStr (s : List Char) : List Char := s.map lowerChar

/-! ## Basic string operations -/

/-- Python `str.strip()`: drop leading and trailing whitespace. -/
def stripChars (l : List Char) : List Char :=
  ((l.dropWhile isSpaceChar).reverse.dropWhile isSpaceChar).reverse

/-- Python `" ".join(...)` over a list of chunks. -/
def joinSp : List (List Char) → List Char
  | [] => []
  | [s] => s
  | s :: t :: rest => s ++ ' ' :: joinSp (t :: rest)

/-- Case-insensitive literal-prefix test: does `s` start with `lit`, comparing
both sides lower-cased?  This is how every literal piece of the source's
IGNORECASE regexes is matched. -/
def ciStartsWith (lit s : List Char) : Bool :=
  (s.take lit.length).map lowerChar = lit.map lowerChar

/-! ## Leftmost-match scanner

`re.search` tries candidate start offsets `0, 1, 2, …` in order and returns
the first offset at which the pattern matches.  `scanFrom f fuel i` scans
offsets `i, i+1, …` (at most `fuel` of them) and returns the first offset
`j` with `f j = some a`, together with `a`. -/

def scanFrom {α : Type} (f : Nat → Option α) : Nat → Nat → Option (Nat × α)
  | 0, _ => none
  | fuel + 1, i =>
    match f i with
    | some a => some (i, a)
    | none => scanFrom f fuel (i + 1)

/-! ## The markup scanner (`SimpleTitleH1Parser`, lines 33–62)

The class is built on the standard library's streaming HTML tokenizer
(`html.parser.HTMLParser`), which is not part of this repository. -/

inductive Tok : Type
  | startTag (name : List Char)
  | endTag (name : List Char)
  | text (chunk : List Char)
deriving DecidableEq

/-- Helper for `tokenize`: interpret the contents between `<` and `>` as a
tag event.  End tags start with `/`; declarations, comments and processing
instructions (`!`, `?`) produce no event; anything else is a start tag whose
name is its leading run of alphanumeric characters (attributes are dropped,
as the scanner never looks at them). -/
def mkTag (content : List Char) : List Tok :=
  match content with
  | [] => []
  | c :: r =>
    if c = '/' then [Tok.endTag (r.takeWhile (fun x => x.isAlpha || x.isDigit))]
    else if c = '!' || c = '?' then []
    else [Tok.startTag ((c :: r).takeWhile (fun x => x.isAlpha || x.isDigit))]

/-- Helper for `tokenize`: walk the raw characters, `inTag` tells whether we
are between `<` and `>`, `acc` holds the current chunk reversed.  An
unterminated trailing tag is silently dropped (best-effort recovery). -/
def tokenizeAux : List Char → Bool → List Char → List Tok
  | [], inTag, acc =>
    if inTag then [] else if acc = [] then [] else [Tok.text acc.reverse]
  | c :: r, true, acc =>
    if c = '>' then mkTag acc.reverse ++ tokenizeAux r false []
    else tokenizeAux r true (c :: acc)
  | c :: r, false, acc =>
    if c = '<' then
      (if acc = [] then [] else [Tok.text acc.reverse]) ++ tokenizeAux r true []
    else tokenizeAux r false (c :: acc)

/-- Modelled from the spec: the streaming tag/text walker supplied by the
standard HTML parsing library (not part of this repository).  It splits raw
markup into start-tag, end-tag and text events in document order; malformed
markup (unterminated tags, unknown tags, unbalanced nesting) never raises —
unterminated trailing material is dropped and unknown tags are still
reported as tag events. -/
def tokenize (text : List Char) : List Tok :=
  tokenizeAux text false []

/-- The mutable state of `SimpleTitleH1Parser` (lines 34–40). -/
structure ScanState : Type where
  in_title : Bool
  in_h1 : Bool
  title_text : List (List Char)
  h1_text : List (List Char)
  all_text : List (List Char)
deriving DecidableEq

/-- Lines 35–40: `__init__`. -/
def initState : ScanState :=
  { in_title := false, in_h1 := false, title_text := [], h1_text := [], all_text := [] }

/-- Lines 42–46: `handle_starttag`. -/
def handle_starttag (st : ScanState) (tag : List Char) : ScanState :=
  if lowerStr tag = "title".data then { st with in_title := true }
  else if lowerStr tag = "h1".data then { st with in_h1 := true }
  else st

/-- Lines 48–52: `handle_endtag`. -/
def handle_endtag (st : ScanState) (tag : List Char) : ScanState :=
  if lowerStr tag = "title".data then { st with in_title := false }
  else if lowerStr tag = "h1".data then { st with in_h1 := false }
  else st

/-- Lines 54–62: `handle_data`.  The stripped chunk is appended to the
all-text buffer, and to the title/h1 buffers according to the (independent)
insideness flags. -/
def handle_data (st : ScanState) (data : List Char) : ScanState :=
  let s := stripChars data
  if s = [] then st
  else
    { st with
      all_text := st.all_text ++ [s]
      title_text := if st.in_title then st.title_text ++ [s] else st.title_text
      h1_text := if st.in_h1 then st.h1_text ++ [s] else st.h1_text }

/-- Dispatch one tokenizer event to the matching handler. -/
def feedTok (st : ScanState) : Tok → ScanState
  | Tok.startTag tag => handle_starttag st tag
  | Tok.endTag tag => handle_endtag st tag
  | Tok.text chunk => handle_data st chunk

def feedList : ScanState → List Tok → ScanState
  | st, [] => st
  | st, t :: ts => feedList (feedTok st t) ts

/-- `p = SimpleTitleH1Parser(); p.feed(text)`: scan a whole document. -/
def feed (text : List Char) : ScanState :=
  feedList initState (tokenize text)

/-! ## The name resolver (`extract_name_from_html`, lines 64–77) -/

/-- Line 67: `" ".join(p.title_text).strip()`. -/
def titleOf (text : List Char) : List Char :=
  stripChars (joinSp (feed text).title_text)

/-- Line 74: `" ".join(p.h1_text).strip()`. -/
def h1Of (text : List Char) : List Char :=
  stripChars (joinSp (feed text).h1_text)

/-- Match of the name regex `[:\-–]\s*([А-ЯA-ZЁ][^|<>()]{2,})$` (line 70) at
start offset `i` of `t`, returning the captured group (not yet stripped).

The regex is deterministic at a fixed start offset: the greedy `\s*` must
stop exactly at the maximal whitespace run, because the following class
`[А-ЯA-ZЁ]` accepts no whitespace character; and `[^|<>()]{2,}` anchored by
`$` must consume exactly the rest of the string, so it succeeds iff every
remaining character avoids `|<>()` and at least two remain.
`isSepColon` is the separator class `[:\-–]`. -/
def isSepColon (c : Char) : Bool := c = ':' || c = '-' || c = '–'

def trailMatchAt (t : List Char) (i : Nat) : Option (List Char) :=
  match t.drop i with
  | [] => none
  | sep :: rest =>
    if isSepColon sep then
      match rest.drop (rest.takeWhile isSpaceChar).length with
      | [] => none
      | c :: tail =>
        if isUpperStart c && decide (2 ≤ tail.length) && tail.all isTailChar then
          some (c :: tail)
        else none
    else none

/-- `re.search` of the name regex over the title: leftmost start offset. -/
def searchTrail (t : List Char) : Option (List Char) :=
  (scanFrom (trailMatchAt t) t.length 0).map (fun x => x.2)

/-- Lines 64–77: `extract_name_from_html`.  The source's truthiness tests
(`if title:` / `if h1:`) compare the stripped join against the empty string. -/
def extract_name_from_html (text : List Char) : Option (List Char) :=
  let title := titleOf text
  if title = [] then
    let h1 := h1Of text
    if h1 = [] then none else some h1
  else
    match searchTrail title with
    | some cap => some (stripChars cap)   -- line 72: `m.group(1).strip()`
    | none => some title

/-! ## Filename fallback (`humanize_from_filename`, lines 119–122) -/

/-- Helper for `partsOf`: `acc` is the current separator-free run, reversed.
`re.split(r"[_\-\.]+", stem)` splits on maximal separator runs and the
comprehension `for s in parts if s` drops the empty pieces, so the surviving
parts are exactly the maximal separator-free runs of the stem. -/
def partsAux : List Char → List Char → List (List Char)
  | [], acc => if acc = [] then [] else [acc.reverse]
  | c :: r, acc =>
    if isSepChar c then
      (if acc = [] then [] else [acc.reverse]) ++ partsAux r []
    else partsAux r (c :: acc)

/-- Line 121 with the line-122 filter: the non-empty pieces of
`re.split(r"[_\-\.]+", stem)`. -/
def partsOf (stem : List Char) : List (List Char) :=
  partsAux stem []

/-- Python `str.capitalize()`: first character upper-cased, the rest
lower-cased. -/
def pyCapitalize : List Char → List Char
  | [] => []
  | c :: r => upperChar c :: r.map lowerChar

/-- Lines 119–122: `humanize_from_filename` applied to the filename stem. -/
def humanize_from_filename (stem : List Char) : List Char :=
  joinSp ((partsOf stem).map pyCapitalize)

/-! ## The caller's name post-step (`main`, lines 128–129) -/

/-- Helper for `collapseWs`: replace each maximal whitespace run by a single
space (`re.sub(r"\s+", " ", name)`).  `pending` tells whether we are inside
a run whose single space has already been emitted. -/
def squeezeAux : List Char → Bool → List Char
  | [], _ => []
  | c :: r, pending =>
    if isSpaceChar c then
      if pending then squeezeAux r true else ' ' :: squeezeAux r true
    else c :: squeezeAux r false

/-- Line 129: `re.sub(r"\s+", " ", name).strip()`. -/
def collapseWs (name : List Char) : List Char :=
  stripChars (squeezeAux name false)

/-- Python `x or y` on an optional string: `None` and `""` are falsy. -/
def pyOr : Option (List Char) → List Char → List Char
  | some s, d => if s = [] then d else s
  | none, d => d

/-- Lines 128–129: the resolved display name of one document. -/
def resolveName (text stem : List Char) : List Char :=
  collapseWs (pyOr (extract_name_from_html text) (humanize_from_filename stem))

/-! ## The period resolver (`extract_month_year`, lines 79–117) -/

/-- Consume the literal `lit` case-insensitively (a literal piece of an
IGNORECASE regex), returning the remaining input. -/
def eatCI (lit s : List Char) : Option (List Char) :=
  if ciStartsWith lit s then some (s.drop lit.length) else none

/-- Consume `\s+`: at least one whitespace character, greedily.  In the
meta-tag regex each `\s+` is followed by a literal starting with a
non-whitespace letter, so only the maximal whitespace run can match. -/
def eatWs1 (s : List Char) : Option (List Char) :=
  let w := (s.takeWhile isSpaceChar).length
  if 1 ≤ w then some (s.drop w) else none

/-- Consume one quote character (the class `["\']`; the regex does not
require the opening and closing quotes to match each other). -/
def eatQuote : List Char → Option (List Char)
  | [] => none
  | c :: r => if isQuoteChar c then some r else none

/-- Consume exactly `n` ASCII digits, accumulating their numeric value
(this combines the `\d{n}` group with the `int(...)` conversion of line 87). -/
def eatDigits : Nat → Nat → List Char → Option (Nat × List Char)
  | 0, acc, s => some (acc, s)
  | _ + 1, _, [] => none
  | n + 1, acc, c :: s =>
    if c.isDigit then eatDigits n (acc * 10 + (c.toNat - 48)) s else none

/-- Match of the meta-tag regex (line 85)
`<meta\s+name=["\']report-month["\']\s+content=["\'](\d{4})-(\d{2})["\']`
(IGNORECASE) at start offset `i` of `text`, returning `(year, month)`.
Both `\s+` occurrences are deterministic (see `eatWs1`), and everything else
is a literal, a quote class or a fixed digit count, so the whole pattern is
deterministic at a fixed offset. -/
def metaMatchAt (text : List Char) (i : Nat) : Option (Nat × Nat) :=
  (eatCI "<meta".data (text.drop i)).bind fun s1 =>
  (eatWs1 s1).bind fun s2 =>
  (eatCI "name=".data s2).bind fun s3 =>
  (eatQuote s3).bind fun s4 =>
  (eatCI "report-month".data s4).bind fun s5 =>
  (eatQuote s5).bind fun s6 =>
  (eatWs1 s6).bind fun s7 =>
  (eatCI "content=".data s7).bind fun s8 =>
  (eatQuote s8).bind fun s9 =>
  (eatDigits 4 0 s9).bind fun ys =>
  (match ys.2 with
   | '-' :: r => some r
   | _ => none).bind fun s10 =>
  (eatDigits 2 0 s10).bind fun ms =>
  (eatQuote ms.2).map fun _ => (ys.1, ms.1)

/-- Line 85: `re.search` of the meta-tag regex over the raw document text;
the leftmost match wins, and its `(year, month)` groups are returned. -/
def metaSearch (text : List Char) : Option (Nat × Nat) :=
  (scanFrom (metaMatchAt text) text.length 0).map (fun x => x.2)

/-- Line 88: `MONTHS.get(m, (None, None))[1]` — the canonical display label
for a month number, absent outside 1–12 (table at lines 11–24). -/
def monthLabelOpt (m : Nat) : Option String :=
  match m with
  | 1 => some "Январь"
  | 2 => some "Февраль"
  | 3 => some "Март"
  | 4 => some "Апрель"
  | 5 => some "Май"
  | 6 => some "Июнь"
  | 7 => some "Июль"
  | 8 => some "Август"
  | 9 => some "Сентябрь"
  | 10 => some "Октябрь"
  | 11 => some "Ноябрь"
  | 12 => some "Декабрь"
  | _ => none

/-- The month-name patterns of the `MONTHS` table (lines 11–24), reduced to
literal alternatives for prefix matching.  Each source regex is a mandatory
literal stem followed by optional or alternative suffixes; a match exists at
an offset, and starts there, iff one of the listed literals is a
case-insensitive prefix at that offset:

* `янв(?:арь|аря|\.?)` — `\.?` can be empty, so the stem `янв` suffices;
* `февр?(?:аль|аля|\.?)` — both `р?` and `\.?` can be empty: stem `фев`;
* `март(?:а)?` — optional suffix: stem `март`;
* `апрел(?:ь|я|\.?)` — `\.?` can be empty: stem `апрел`;
* `ма[йя]` — mandatory class: alternatives `май`, `мая`;
* `июн(?:ь|я)`, `июл(?:ь|я)` — mandatory alternation: `июнь|июня`, `июль|июля`;
* `август(?:а)?` — stem `август`;
* `сентябр(?:ь|я)`, `октябр(?:ь|я)`, `ноябр(?:ь|я)`, `декабр(?:ь|я)` —
  mandatory alternation on the final vowel. -/
def monthAlts (m : Nat) : List (List Char) :=
  match m with
  | 1 => ["янв".data]
  | 2 => ["фев".data]
  | 3 => ["март".data]
  | 4 => ["апрел".data]
  | 5 => ["май".data, "мая".data]
  | 6 => ["июнь".data, "июня".data]
  | 7 => ["июль".data, "июля".data]
  | 8 => ["август".data]
  | 9 => ["сентябрь".data, "сентября".data]
  | 10 => ["октябрь".data, "октября".data]
  | 11 => ["ноябрь".data, "ноября".data]
  | 12 => ["декабрь".data, "декабря".data]
  | _ => []

/-- Does month `m`'s pattern match at offset `i` of `blob`
(case-insensitively, per `re.I | re.U`)? -/
def monthAt (m : Nat) (blob : List Char) (i : Nat) : Bool :=
  (monthAlts m).any (fun a => ciStartsWith a (blob.drop i))

/-- `rx.search(blob)` for month `m`'s compiled pattern: offset of the
leftmost match (`m.start()`), if any. -/
def rxSearchPos (m : Nat) (blob : List Char) : Option Nat :=
  (scanFrom (fun i => if monthAt m blob i then some () else none) blob.length 0).map
    (fun x => x.1)

/-- The iteration order of `MONTH_COMPILED` (lines 27–29): ascending month
number, as inserted into the `MONTHS` dict literal. -/
def monthList : List (Nat × String) :=
  [(1, "Январь"), (2, "Февраль"), (3, "Март"), (4, "Апрель"), (5, "Май"),
   (6, "Июнь"), (7, "Июль"), (8, "Август"), (9, "Сентябрь"), (10, "Октябрь"),
   (11, "Ноябрь"), (12, "Декабрь")]

/-- The loop of lines 99–105: try each month's pattern in table order; the
first month whose pattern matches anywhere wins, with its match offset. -/
def msAux (blob : List Char) : List (Nat × String) → Option (Nat × String × Nat)
  | [] => none
  | (num, name) :: rest =>
    match rxSearchPos num blob with
    | some pos => some (num, name, pos)
    | none => msAux blob rest

def monthSearch (blob : List Char) : Option (Nat × String × Nat) :=
  msAux blob monthList

/-- Match of `YEAR_RE = (20\d{2})` (line 31) at offset `i`, returning the
numeric value (`int(ym.group(1))`, line 115). -/
def yearAt (s : List Char) (i : Nat) : Option Nat :=
  match s.drop i with
  | '2' :: '0' :: c :: d :: _ =>
    if c.isDigit && d.isDigit then some (2000 + (c.toNat - 48) * 10 + (d.toNat - 48))
    else none
  | _ => none

/-- Line 114: `YEAR_RE.search(around)` — leftmost `20\d{2}` occurrence with
its offset and value. -/
def yearSearchPos (s : List Char) : Option (Nat × Nat) :=
  scanFrom (yearAt s) s.length 0

/-- Lines 92–94: the visible-text search blob — scan the document and join
the all-text chunks with single spaces. -/
def blobOf (text : List Char) : List Char :=
  joinSp (feed text).all_text

/-- Lines 110–113: the ±40-character window of `blob` around match offset
`pos`, clamped to the blob bounds (`blob[max(0,pos-40):min(len(blob),pos+40)]`;
natural subtraction is the `max` with 0). -/
def windowAround (blob : List Char) (pos : Nat) : List Char :=
  (blob.drop (pos - 40)).take (min blob.length (pos + 40) - (pos - 40))

/-- Lines 79–117: `extract_month_year`, returning
`(month_num, year, month_pretty)`. -/
def extract_month_year (text : List Char) : Option Nat × Option Nat × Option String :=
  match metaSearch text with
  | some ym => (some ym.2, some ym.1, monthLabelOpt ym.2)
  | none =>
    match monthSearch (blobOf text) with
    | none => (none, none, none)
    | some (num, name, pos) =>
      let around := windowAround (blobOf text) pos
      (some num, (yearSearchPos around).map (fun x => x.2), some name)

/-! ## The index builder (`main`, lines 124–139) -/

structure IndexRecord : Type where
  name : List Char
  url : List Char
  month : Option Nat
  month_name : Option String
  year : Option Nat
deriving DecidableEq

/-- Lines 128–139: one index record for a document with the given filename,
filename stem and raw text. -/
def buildRecord (filename stem text : List Char) : IndexRecord :=
  { name := resolveName text stem
    url := "reports/".data ++ filename
    month := (extract_month_year text).1
    month_name := (extract_month_year text).2.2
    year := (extract_month_year text).2.1 }

/-! ## Lemmas about the leftmost-match scanner -/

theorem scanFrom_eq_some {α : Type} (f : Nat → Option α) :
    ∀ (fuel i j : Nat) (a : α), scanFrom f fuel i = some (j, a) →
      f j = some a ∧ i ≤ j ∧ ∀ k, i ≤ k → k < j → f k = none := by
  intro fuel
  induction fuel with
  | zero => intro i j a h; simp [scanFrom] at h
  | succ n ih =>
    intro i j a h
    unfold scanFrom at h
    cases hf : f i with
    | some b =>
      rw [hf] at h
      obtain ⟨rfl, rfl⟩ : i = j ∧ b = a := by
        constructor <;> [exact (Prod.mk.injEq _ _ _ _ ▸ Option.some.inj h).1;
          exact (Prod.mk.injEq _ _ _ _ ▸ Option.some.inj h).2]
      exact ⟨hf, Nat.le_refl _, fun k hk1 hk2 => absurd (Nat.lt_of_le_of_lt hk1 hk2) (Nat.lt_irrefl _)⟩
    | none =>
      rw [hf] at h
      obtain ⟨h1, h2, h3⟩ := ih (i + 1) j a h
      refine ⟨h1, Nat.le_trans (Nat.le_succ i) h2, fun k hk1 hk2 => ?_⟩
      rcases Nat.eq_or_lt_of_le hk1 with rfl | hk
      · exact hf
      · exact h3 k hk hk2

theorem scanFrom_eq_none {α : Type} (f : Nat → Option α) :
    ∀ (fuel i : Nat), scanFrom f fuel i = none →
      ∀ k, i ≤ k → k < i + fuel → f k = none := by
  intro fuel
  induction fuel with
  | zero => intro i _ k hk1 hk2; omega
  | succ n ih =>
    intro i h k hk1 hk2
    unfold scanFrom at h
    cases hf : f i with
    | some b => rw [hf] at h; exact absurd h (by simp)
    | none =>
      rw [hf] at h
      rcases Nat.eq_or_lt_of_le hk1 with rfl | hk
      · exact hf
      · exact ih (i + 1) h k hk (by omega)

/-! ## Lemmas about character classes -/

theorem isSpaceChar_cases {c : Char} (h : isSpaceChar c = true) :
    c = ' ' ∨ c = '\t' ∨ c = '\n' ∨ c = '\r' ∨ c = '\x0b' ∨ c = '\x0c' := by
  simp [isSpaceChar] at h
  tauto

theorem isUpperStart_not_space {c : Char} (h : isUpperStart c = true) :
    isSpaceChar c = false := by
  cases hs : isSpaceChar c with
  | false => rfl
  | true =>
    exfalso
    rcases isSpaceChar_cases hs with rfl | rfl | rfl | rfl | rfl | rfl <;>
      simp [isUpperStart] at h

theorem isSpaceChar_lowerChar (c : Char) :
    isSpaceChar (lowerChar c) = isSpaceChar c := by
  unfold lowerChar
  split <;> rfl

theorem isSpaceChar_upperChar (c : Char) :
    isSpaceChar (upperChar c) = isSpaceChar c := by
  unfold upperChar
  split <;> rfl

/-! ## Lemmas about `takeWhile`, `dropWhile` and `stripChars` -/

theorem takeWhile_all (p : Char → Bool) (l : List Char) :
    (l.takeWhile p).all p = true := by
  induction l with
  | nil => rfl
  | cons c r ih =>
    rw [List.takeWhile_cons]
    by_cases hc : p c = true
    · simp [hc, ih]
    · simp [Bool.eq_false_iff.mpr hc]

theorem take_takeWhile_length (p : Char → Bool) (l : List Char) :
    l.take (l.takeWhile p).length = l.takeWhile p := by
  induction l with
  | nil => rfl
  | cons c r ih =>
    rw [List.takeWhile_cons]
    by_cases hc : p c = true
    · simp [hc, List.take_succ_cons, ih]
    · simp [Bool.eq_false_iff.mpr hc]

theorem drop_takeWhile_length (p : Char → Bool) (l : List Char) :
    l.drop (l.takeWhile p).length = l.dropWhile p := by
  induction l with
  | nil => rfl
  | cons c r ih =>
    rw [List.takeWhile_cons, List.dropWhile_cons]
    by_cases hc : p c = true
    · simp [hc, ih]
    · simp [Bool.eq_false_iff.mpr hc]

theorem takeWhile_all_append {p : Char → Bool} {l₁ : List Char} (c : Char)
    (l₂ : List Char) (h1 : l₁.all p = true) (hc : p c = false) :
    (l₁ ++ c :: l₂).takeWhile p = l₁ := by
  induction l₁ with
  | nil => simp [List.takeWhile_cons, hc]
  | cons a r ih =>
    rw [List.all_cons, Bool.and_eq_true] at h1
    simp only [List.cons_append, List.takeWhile_cons, h1.1]
    simp [ih h1.2]

theorem dropWhile_head_false {p : Char → Bool} {l r : List Char} {c : Char}
    (h : l.dropWhile p = c :: r) : p c = false := by
  induction l with
  | nil => simp at h
  | cons a t ih =>
    rw [List.dropWhile_cons] at h
    by_cases ha : p a = true
    · rw [if_pos ha] at h; exact ih h
    · rw [if_neg ha] at h
      cases h
      exact Bool.eq_false_iff.mpr ha

theorem mem_dropWhile_of_not {p : Char → Bool} {x : Char} (hx : p x = false) :
    ∀ {l : List Char}, x ∈ l → x ∈ l.dropWhile p := by
  intro l
  induction l with
  | nil => intro h; cases h
  | cons a t ih =>
    intro h
    rw [List.dropWhile_cons]
    by_cases ha : p a = true
    · rw [if_pos ha]
      rcases List.mem_cons.mp h with rfl | hmem
      · rw [ha] at hx; cases hx
      · exact ih hmem
    · rw [if_neg ha]; exact h

theorem mem_stripChars_of {x : Char} (hx : isSpaceChar x = false) :
    ∀ {l : List Char}, x ∈ l → x ∈ stripChars l := by
  intro l hmem
  unfold stripChars
  rw [List.mem_reverse]
  exact mem_dropWhile_of_not hx (List.mem_reverse.mpr (mem_dropWhile_of_not hx hmem))

theorem stripChars_ne_nil_of_mem {x : Char} {l : List Char}
    (hx : isSpaceChar x = false) (hmem : x ∈ l) : stripChars l ≠ [] := fun h =>
  (List.not_mem_nil x) (h ▸ mem_stripChars_of hx hmem)

theorem stripChars_ne_nil_mem {l : List Char} (h : stripChars l ≠ []) :
    ∃ c ∈ stripChars l, isSpaceChar c = false := by
  unfold stripChars at *
  cases hd : (l.dropWhile isSpaceChar).reverse.dropWhile isSpaceChar with
  | nil => rw [hd] at h; simp at h
  | cons c r =>
    refine ⟨c, ?_, dropWhile_head_false hd⟩
    exact List.mem_reverse.mpr (List.mem_cons_self c r)

/-! ## Lemmas about `squeezeAux`, `joinSp` and `partsAux` -/

theorem mem_squeezeAux {x : Char} (hx : isSpaceChar x = false) :
    ∀ (l : List Char) (b : Bool), x ∈ l → x ∈ squeezeAux l b := by
  intro l
  induction l with
  | nil => intro b h; cases h
  | cons c r ih =>
    intro b h
    unfold squeezeAux
    by_cases hc : isSpaceChar c = true
    · rcases List.mem_cons.mp h with rfl | hmem
      · rw [hc] at hx; cases hx
      · rw [hc]
        cases b with
        | true => simpa using ih true hmem
        | false => simp only [if_true]; exact List.mem_cons_of_mem _ (ih true hmem)
    · rw [Bool.eq_false_iff.mpr hc]
      simp only [Bool.false_eq_true, if_false]
      rcases List.mem_cons.mp h with rfl | hmem
      · exact List.mem_cons_self _ _
      · exact List.mem_cons_of_mem _ (ih false hmem)

theorem collapseWs_ne_nil_of_mem {x : Char} {s : List Char}
    (hmem : x ∈ s) (hx : isSpaceChar x = false) : collapseWs s ≠ [] :=
  stripChars_ne_nil_of_mem hx (mem_squeezeAux hx s false hmem)

theorem mem_joinSp {x : Char} :
    ∀ {l : List (List Char)} {p : List Char}, p ∈ l → x ∈ p → x ∈ joinSp l := by
  intro l
  induction l with
  | nil => intro p h; cases h
  | cons s rest ih =>
    intro p hp hx
    cases rest with
    | nil =>
      rcases List.mem_cons.mp hp with rfl | h
      · simpa [joinSp] using hx
      · cases h
    | cons t ts =>
      show x ∈ s ++ ' ' :: joinSp (t :: ts)
      rcases List.mem_cons.mp hp with rfl | h
      · exact List.mem_append.mpr (Or.inl hx)
      · exact List.mem_append.mpr (Or.inr (List.mem_cons_of_mem _ (ih h hx)))

theorem partsAux_mem {x : Char} (hx : isSepChar x = false) :
    ∀ (l acc : List Char), (x ∈ l ∨ x ∈ acc) →
      ∃ part ∈ partsAux l acc, x ∈ part := by
  intro l
  induction l with
  | nil =>
    intro acc h
    rcases h with h | h
    · cases h
    · have hne : acc ≠ [] := by rintro rfl; cases h
      refine ⟨acc.reverse, ?_, List.mem_reverse.mpr h⟩
      simp [partsAux, hne]
  | cons c r ih =>
    intro acc h
    unfold partsAux
    by_cases hc : isSepChar c = true
    · rw [if_pos hc]
      rcases h with h | h
      · rcases List.mem_cons.mp h with rfl | hmem
        · rw [hc] at hx; cases hx
        · obtain ⟨part, hin, hxin⟩ := ih [] (Or.inl hmem)
          exact ⟨part, List.mem_append.mpr (Or.inr hin), hxin⟩
      · have hne : acc ≠ [] := by rintro rfl; cases h
        refine ⟨acc.reverse, ?_, List.mem_reverse.mpr h⟩
        simp [hne]
    · rw [if_neg hc]
      rcases h with h | h
      · rcases List.mem_cons.mp h with rfl | hmem
        · exact ih (x :: acc) (Or.inr (List.mem_cons_self _ _))
        · exact ih (c :: acc) (Or.inl hmem)
      · exact ih (c :: acc) (Or.inr (List.mem_cons_of_mem _ h))

theorem partsAux_wf :
    ∀ (l acc : List Char), (∀ y ∈ acc, isSepChar y = false) →
      ∀ part ∈ partsAux l acc, part ≠ [] ∧ part.all (fun c => !isSepChar c) = true := by
  intro l
  induction l with
  | nil =>
    intro acc hacc part hpart
    unfold partsAux at hpart
    by_cases hne : acc = []
    · rw [if_pos hne] at hpart; cases hpart
    · rw [if_neg hne] at hpart
      rcases List.mem_cons.mp hpart with rfl | h
      · refine ⟨by simpa using hne, ?_⟩
        rw [List.all_eq_true]
        intro y hy
        simpa using hacc y (List.mem_reverse.mp hy)
      · cases h
  | cons c r ih =>
    intro acc hacc part hpart
    unfold partsAux at hpart
    by_cases hc : isSepChar c = true
    · rw [if_pos hc] at hpart
      rcases List.mem_append.mp hpart with h | h
      · by_cases hne : acc = []
        · rw [if_pos hne] at h; cases h
        · rw [if_neg hne] at h
          rcases List.mem_cons.mp h with rfl | h2
          · refine ⟨by simpa using hne, ?_⟩
            rw [List.all_eq_true]
            intro y hy
            simpa using hacc y (List.mem_reverse.mp hy)
          · cases h2
      · exact ih [] (by intro y hy; cases hy) part h
    · rw [if_neg hc] at hpart
      refine ih (c :: acc) ?_ part hpart
      intro y hy
      rcases List.mem_cons.mp hy with rfl | h
      · exact Bool.eq_false_iff.mpr hc
      · exact hacc y h

/-! ## Shape lemmas for the name resolver -/

theorem trailMatchAt_some_shape {t : List Char} {i : Nat} {cap : List Char}
    (h : trailMatchAt t i = some cap) :
    ∃ c tail, cap = c :: tail ∧ isUpperStart c = true ∧ 2 ≤ tail.length ∧
      tail.all isTailChar = true := by
  unfold trailMatchAt at h
  split at h
  · cases h
  · split at h
    · split at h
      · cases h
      · split at h
        · rename_i c tail heq hcond
          rw [Bool.and_eq_true, Bool.and_eq_true] at hcond
          exact ⟨c, tail, (Option.some.inj h).symm, hcond.1.1,
            of_decide_eq_true hcond.1.2, hcond.2⟩
        · cases h
    · cases h

theorem extract_name_mem {text : List Char} {s : List Char}
    (h : extract_name_from_html text = some s) :
    ∃ c ∈ s, isSpaceChar c = false := by
  unfold extract_name_from_html at h
  by_cases ht : titleOf text = []
  · rw [if_pos ht] at h
    by_cases hh : h1Of text = []
    · rw [if_pos hh] at h; cases h
    · rw [if_neg hh] at h
      cases h
      exact stripChars_ne_nil_mem hh
  · rw [if_neg ht] at h
    cases hs : searchTrail (titleOf text) with
    | some cap =>
      rw [hs] at h
      cases h
      obtain ⟨j, a, hja⟩ : ∃ j a, scanFrom (trailMatchAt (titleOf text))
          (titleOf text).length 0 = some (j, a) := by
        unfold searchTrail at hs
        cases hscan : scanFrom (trailMatchAt (titleOf text)) (titleOf text).length 0 with
        | none => rw [hscan] at hs; cases hs
        | some pr =>
          obtain ⟨j, a⟩ := pr
          exact ⟨j, a, rfl⟩
      have hcap : a = cap := by
        unfold searchTrail at hs
        rw [hja] at hs
        exact Option.some.inj hs
      subst hcap
      obtain ⟨hmatch, _, _⟩ := scanFrom_eq_some _ _ _ _ _ hja
      obtain ⟨c, tail, rfl, hup, _, _⟩ := trailMatchAt_some_shape hmatch
      have hcws : isSpaceChar c = false := isUpperStart_not_space hup
      exact ⟨c, mem_stripChars_of hcws (List.mem_cons_self _ _), hcws⟩
    | none =>
      rw [hs] at h
      cases h
      exact stripChars_ne_nil_mem ht

/-! ## Lemmas about the meta-tag matcher -/

theorem eatCI_some {lit s r : List Char} (h : eatCI lit s = some r) :
    ciStartsWith lit s = true ∧ r = s.drop lit.length := by
  unfold eatCI at h
  split at h
  · exact ⟨by assumption, (Option.some.inj h).symm⟩
  · cases h

theorem eatWs1_some {s r : List Char} (h : eatWs1 s = some r) :
    ∃ w, 1 ≤ w ∧ (s.take w).all isSpaceChar = true ∧ r = s.drop w := by
  simp only [eatWs1] at h
  split at h
  · refine ⟨(s.takeWhile isSpaceChar).length, by assumption, ?_, (Option.some.inj h).symm⟩
    rw [take_takeWhile_length]
    exact takeWhile_all _ _
  · cases h

theorem eatQuote_some {s r : List Char} (h : eatQuote s = some r) :
    ∃ q, s = q :: r ∧ isQuoteChar q = true := by
  cases s with
  | nil => simp [eatQuote] at h
  | cons c rest =>
    simp only [eatQuote] at h
    split at h
    · exact ⟨c, by rw [Option.some.inj h], by assumption⟩
    · cases h

/-- Structure forced by any match of the meta-tag regex: right after `<meta`
comes a whitespace run and then the `name="report-month"` attribute, and
right after that attribute comes a whitespace run and then `content=` — the
`name` attribute precedes `content`, separated by whitespace alone. -/
theorem metaMatchAt_structure {text : List Char} {i y m : Nat}
    (h : metaMatchAt text i = some (y, m)) :
    ∃ w1 w2, 1 ≤ w1 ∧ 1 ≤ w2 ∧
      ciStartsWith "<meta".data (text.drop i) = true ∧
      (((text.drop i).drop 5).take w1).all isSpaceChar = true ∧
      ciStartsWith "name=".data ((text.drop i).drop (5 + w1)) = true ∧
      ciStartsWith "report-month".data ((text.drop i).drop (5 + w1 + 5 + 1)) = true ∧
      ((((text.drop i).drop (5 + w1 + 5 + 1 + 12 + 1)).take w2).all isSpaceChar) = true ∧
      ciStartsWith "content=".data ((text.drop i).drop (5 + w1 + 5 + 1 + 12 + 1 + w2)) = true := by
  unfold metaMatchAt at h
  rw [Option.bind_eq_some] at h
  obtain ⟨s1, h1, h⟩ := h
  rw [Option.bind_eq_some] at h
  obtain ⟨s2, h2, h⟩ := h
  rw [Option.bind_eq_some] at h
  obtain ⟨s3, h3, h⟩ := h
  rw [Option.bind_eq_some] at h
  obtain ⟨s4, h4, h⟩ := h
  rw [Option.bind_eq_some] at h
  obtain ⟨s5, h5, h⟩ := h
  rw [Option.bind_eq_some] at h
  obtain ⟨s6, h6, h⟩ := h
  rw [Option.bind_eq_some] at h
  obtain ⟨s7, h7, h⟩ := h
  rw [Option.bind_eq_some] at h
  obtain ⟨s8, h8, _⟩ := h
  obtain ⟨hci1, hs1⟩ := eatCI_some h1
  obtain ⟨w1, hw1, hall1, hs2⟩ := eatWs1_some h2
  obtain ⟨hci2, hs3⟩ := eatCI_some h3
  obtain ⟨q1, hq1, _⟩ := eatQuote_some h4
  obtain ⟨hci3, hs5⟩ := eatCI_some h5
  obtain ⟨q2, hq2, _⟩ := eatQuote_some h6
  obtain ⟨w2, hw2, hall2, hs7⟩ := eatWs1_some h7
  obtain ⟨hci4, _⟩ := eatCI_some h8
  have hm5 : ("<meta".data).length = 5 := rfl
  have hn5 : ("name=".data).length = 5 := rfl
  have hr12 : ("report-month".data).length = 12 := rfl
  have e1 : s1 = (text.drop i).drop 5 := by rw [hs1, hm5]
  have e2 : s2 = (text.drop i).drop (5 + w1) := by
    rw [hs2, e1, List.drop_drop]
  have e3 : s3 = (text.drop i).drop (5 + w1 + 5) := by
    rw [hs3, e2, hn5, List.drop_drop]
  have e4 : s4 = (text.drop i).drop (5 + w1 + 5 + 1) := by
    have h14 : s3.drop 1 = s4 := by rw [hq1]; rfl
    rw [← h14, e3, List.drop_drop]
  have e5 : s5 = (text.drop i).drop (5 + w1 + 5 + 1 + 12) := by
    rw [hs5, e4, hr12, List.drop_drop]
  have e6 : s6 = (text.drop i).drop (5 + w1 + 5 + 1 + 12 + 1) := by
    have h16 : s5.drop 1 = s6 := by rw [hq2]; rfl
    rw [← h16, e5, List.drop_drop]
  have e7 : s7 = (text.drop i).drop (5 + w1 + 5 + 1 + 12 + 1 + w2) := by
    rw [hs7, e6, List.drop_drop]
  refine ⟨w1, w2, hw1, hw2, hci1, ?_, ?_, ?_, ?_, ?_⟩
  · rw [← e1]; exact hall1
  · rw [← e2]; exact hci2
  · rw [← e4]; exact hci3
  · rw [← e6]; exact hall2
  · rw [← e7]; exact hci4

/-! ## Declarative form of the trailing-name pattern -/

/-- Declarative reading of a match of the name regex
`[:\-–]\s*([А-ЯA-ZЁ][^|<>()]{2,})$` at offset `i` of the title `t`: at
position `i` stands a separator, followed by a (possibly empty) whitespace
run, then a capitalized character, then at least two further characters none
of which is `|<>()`, reaching exactly to the end of the title.  `cap` is the
captured group. -/
def TrailingDecomp (t : List Char) (i : Nat) (cap : List Char) : Prop :=
  ∃ sep ws c tail,
    t = t.take i ++ sep :: (ws ++ c :: tail) ∧
    isSepColon sep = true ∧ ws.all isSpaceChar = true ∧
    isUpperStart c = true ∧ 2 ≤ tail.length ∧ tail.all isTailChar = true ∧
    cap = c :: tail

theorem trailMatchAt_some_decomp {t : List Char} {i : Nat} {cap : List Char}
    (h : trailMatchAt t i = some cap) : TrailingDecomp t i cap := by
  unfold trailMatchAt at h
  split at h
  · cases h
  · rename_i sep rest heq1
    split at h
    · rename_i hsep
      split at h
      · cases h
      · rename_i c tail heq2
        split at h
        · rename_i hcond
          rw [Bool.and_eq_true, Bool.and_eq_true] at hcond
          have hdw : rest.dropWhile isSpaceChar = c :: tail := by
            rw [← drop_takeWhile_length]; exact heq2
          have hrest : rest = rest.takeWhile isSpaceChar ++ c :: tail := by
            rw [← hdw, List.takeWhile_append_dropWhile]
          have hsplit := List.take_append_drop i t
          rw [heq1] at hsplit
          refine ⟨sep, rest.takeWhile isSpaceChar, c, tail, ?_, hsep,
            takeWhile_all _ _, hcond.1.1, of_decide_eq_true hcond.1.2, hcond.2,
            (Option.some.inj h).symm⟩
          conv_lhs => rw [← hsplit]
          rw [← hrest]
        · cases h
    · cases h

theorem decomp_trailMatchAt {t : List Char} {i : Nat} {cap : List Char}
    (h : TrailingDecomp t i cap) : trailMatchAt t i = some cap := by
  obtain ⟨sep, ws, c, tail, heqt, hsep, hws, hup, hlen, htail, hcap⟩ := h
  have hil : i ≤ t.length := by
    by_contra hgt
    push_neg at hgt
    have h2 : t.length = (t.take i).length + (sep :: (ws ++ c :: tail)).length := by
      conv_lhs => rw [heqt]
      rw [List.length_append]
    have h1 : (t.take i).length = t.length := by
      rw [List.length_take]
      omega
    rw [h1, List.length_cons] at h2
    omega
  have hlen_take : (t.take i).length = i := by
    rw [List.length_take]
    omega
  have hdropi : t.drop i = sep :: (ws ++ c :: tail) := by
    have hd := List.drop_left (t.take i) (sep :: (ws ++ c :: tail))
    rw [hlen_take] at hd
    rw [← heqt] at hd
    exact hd
  have hcws : isSpaceChar c = false := isUpperStart_not_space hup
  have htw : (ws ++ c :: tail).takeWhile isSpaceChar = ws :=
    takeWhile_all_append c tail hws hcws
  have hdw : (ws ++ c :: tail).drop ws.length = c :: tail := List.drop_left ws (c :: tail)
  unfold trailMatchAt
  rw [hdropi]
  simp only [hsep, if_true, htw, hdw, hup, htail, decide_eq_true hlen,
    Bool.and_self, Bool.and_true, Bool.true_and, hcap]

/-- A trailing-pattern match needs at least its separator inside the title. -/
theorem decomp_lt {t : List Char} {i : Nat} {cap : List Char}
    (h : TrailingDecomp t i cap) : i < t.length := by
  obtain ⟨sep, ws, c, tail, heqt, _⟩ := h
  have h2 : t.length = (t.take i).length + (sep :: (ws ++ c :: tail)).length := by
    conv_lhs => rw [heqt]
    rw [List.length_append]
  have h3 : (t.take i).length = min i t.length := List.length_take i t
  rw [List.length_cons] at h2
  omega

theorem trailMatchAt_ge {t : List Char} {i : Nat} (h : t.length ≤ i) :
    trailMatchAt t i = none := by
  unfold trailMatchAt
  rw [List.drop_eq_nil_of_le h]

theorem searchTrail_some {t cap : List Char} (h : searchTrail t = some cap) :
    ∃ i, trailMatchAt t i = some cap ∧ ∀ j, j < i → trailMatchAt t j = none := by
  unfold searchTrail at h
  cases hscan : scanFrom (trailMatchAt t) t.length 0 with
  | none => rw [hscan] at h; cases h
  | some pr =>
    obtain ⟨j, a⟩ := pr
    rw [hscan] at h
    obtain rfl : a = cap := Option.some.inj h
    obtain ⟨h1, _, h3⟩ := scanFrom_eq_some _ _ _ _ _ hscan
    exact ⟨j, h1, fun k hk => h3 k (Nat.zero_le k) hk⟩

theorem searchTrail_none {t : List Char} (h : searchTrail t = none) :
    ∀ i, trailMatchAt t i = none := by
  intro i
  unfold searchTrail at h
  cases hscan : scanFrom (trailMatchAt t) t.length 0 with
  | some pr => rw [hscan] at h; cases h
  | none =>
    rcases Nat.lt_or_ge i t.length with hi | hi
    · exact scanFrom_eq_none _ _ _ hscan i (Nat.zero_le i) (by omega)
    · exact trailMatchAt_ge hi

/-! ## Lemmas about the month search -/

/-- Month `m`'s pattern matches somewhere in the blob. -/
def MonthHit (m : Nat) (blob : List Char) : Prop :=
  ∃ i, monthAt m blob i = true

theorem ciStartsWith_nil {a : List Char} (h : a ≠ []) :
    ciStartsWith a ([] : List Char) = false := by
  cases a with
  | nil => cases h rfl
  | cons c r => simp [ciStartsWith]

theorem monthAlts_ne_nil {m : Nat} (h1 : 1 ≤ m) (h2 : m ≤ 12) :
    ∀ a ∈ monthAlts m, a ≠ [] := by
  interval_cases m <;> decide

theorem monthAt_ge {m : Nat} {blob : List Char} {i : Nat} (h1 : 1 ≤ m)
    (h2 : m ≤ 12) (h : blob.length ≤ i) : monthAt m blob i = false := by
  unfold monthAt
  rw [List.drop_eq_nil_of_le h]
  rw [List.any_eq_false]
  intro a ha
  rw [ciStartsWith_nil (monthAlts_ne_nil h1 h2 a ha)]
  exact Bool.false_ne_true

theorem rxSearchPos_some {m : Nat} {blob : List Char} {pos : Nat}
    (h : rxSearchPos m blob = some pos) :
    monthAt m blob pos = true ∧ ∀ j, j < pos → monthAt m blob j = false := by
  unfold rxSearchPos at h
  cases hscan : scanFrom (fun i => if monthAt m blob i then some () else none)
      blob.length 0 with
  | none => rw [hscan] at h; cases h
  | some pr =>
    obtain ⟨j, u⟩ := pr
    rw [hscan] at h
    obtain rfl : j = pos := Option.some.inj h
    obtain ⟨h1, _, h3⟩ := scanFrom_eq_some _ _ _ _ _ hscan
    constructor
    · by_cases hm : monthAt m blob j = true
      · exact hm
      · rw [if_neg hm] at h1; cases h1
    · intro k hk
      have := h3 k (Nat.zero_le k) hk
      by_cases hm : monthAt m blob k = true
      · rw [if_pos hm] at this; cases this
      · exact Bool.eq_false_iff.mpr hm

theorem rxSearchPos_none {m : Nat} {blob : List Char} (h1 : 1 ≤ m) (h2 : m ≤ 12)
    (h : rxSearchPos m blob = none) : ∀ j, monthAt m blob j = false := by
  intro j
  unfold rxSearchPos at h
  cases hscan : scanFrom (fun i => if monthAt m blob i then some () else none)
      blob.length 0 with
  | some pr => rw [hscan] at h; cases h
  | none =>
    rcases Nat.lt_or_ge j blob.length with hj | hj
    · have := scanFrom_eq_none _ _ _ hscan j (Nat.zero_le j) (by omega)
      by_cases hm : monthAt m blob j = true
      · rw [if_pos hm] at this; cases this
      · exact Bool.eq_false_iff.mpr hm
    · exact monthAt_ge h1 h2 hj

theorem msAux_eq_some {blob : List Char} :
    ∀ l : List (Nat × String), ∀ {num : Nat} {name : String} {pos : Nat},
      msAux blob l = some (num, name, pos) →
      (num, name) ∈ l ∧ rxSearchPos num blob = some pos := by
  intro l
  induction l with
  | nil => intro num name pos h; cases h
  | cons p rest ih =>
    intro num name pos h
    obtain ⟨k, nk⟩ := p
    unfold msAux at h
    cases hrx : rxSearchPos k blob with
    | some q =>
      rw [hrx] at h
      obtain ⟨rfl, rfl, rfl⟩ : k = num ∧ nk = name ∧ q = pos := by
        have := Option.some.inj h
        refine ⟨congrArg Prod.fst this, ?_, ?_⟩
        · exact congrArg (fun x => x.2.1) this
        · exact congrArg (fun x => x.2.2) this
      exact ⟨List.mem_cons_self _ _, hrx⟩
    | none =>
      rw [hrx] at h
      obtain ⟨hm, hr⟩ := ih h
      exact ⟨List.mem_cons_of_mem _ hm, hr⟩

theorem msAux_eq_none {blob : List Char} :
    ∀ l : List (Nat × String), msAux blob l = none →
      ∀ p ∈ l, rxSearchPos p.1 blob = none := by
  intro l
  induction l with
  | nil => intro _ p hp; cases hp
  | cons q rest ih =>
    intro h p hp
    obtain ⟨k, nk⟩ := q
    unfold msAux at h
    cases hrx : rxSearchPos k blob with
    | some _ => rw [hrx] at h; cases h
    | none =>
      rw [hrx] at h
      rcases List.mem_cons.mp hp with rfl | hmem
      · exact hrx
      · exact ih h p hmem

theorem msAux_least {blob : List Char} :
    ∀ l : List (Nat × String), l.Pairwise (fun a b => a.1 < b.1) →
      ∀ {num : Nat} {name : String} {pos : Nat},
        msAux blob l = some (num, name, pos) →
        ∀ p ∈ l, p.1 < num → rxSearchPos p.1 blob = none := by
  intro l
  induction l with
  | nil => intro _ num name pos h; cases h
  | cons q rest ih =>
    intro hpw num name pos h p hp hlt
    obtain ⟨k, nk⟩ := q
    rw [List.pairwise_cons] at hpw
    unfold msAux at h
    cases hrx : rxSearchPos k blob with
    | some pos0 =>
      rw [hrx] at h
      have hk : k = num := congrArg (fun x : Nat × String × Nat => x.1) (Option.some.inj h)
      subst hk
      rcases List.mem_cons.mp hp with rfl | hmem
      · omega
      · exact absurd hlt (by have := hpw.1 p hmem; omega)
    | none =>
      rw [hrx] at h
      rcases List.mem_cons.mp hp with rfl | hmem
      · exact hrx
      · exact ih hpw.2 h p hmem hlt

theorem monthList_pairwise : monthList.Pairwise (fun a b => a.1 < b.1) := by
  decide

theorem monthList_facts : ∀ p ∈ monthList,
    1 ≤ p.1 ∧ p.1 ≤ 12 ∧ monthLabelOpt p.1 = some p.2 := by
  decide

theorem monthList_mem {j : Nat} (h1 : 1 ≤ j) (h2 : j ≤ 12) :
    ∃ nm, (j, nm) ∈ monthList := by
  interval_cases j
  · exact ⟨"Январь", by decide⟩
  · exact ⟨"Февраль", by decide⟩
  · exact ⟨"Март", by decide⟩
  · exact ⟨"Апрель", by decide⟩
  · exact ⟨"Май", by decide⟩
  · exact ⟨"Июнь", by decide⟩
  · exact ⟨"Июль", by decide⟩
  · exact ⟨"Август", by decide⟩
  · exact ⟨"Сентябрь", by decide⟩
  · exact ⟨"Октябрь", by decide⟩
  · exact ⟨"Ноябрь", by decide⟩
  · exact ⟨"Декабрь", by decide⟩

/-! ## Lemmas about the year search -/

theorem yearAt_ge {s : List Char} {i : Nat} (h : s.length ≤ i) :
    yearAt s i = none := by
  unfold yearAt
  rw [List.drop_eq_nil_of_le h]

theorem yearSearchPos_some {s : List Char} {pos y : Nat}
    (h : yearSearchPos s = some (pos, y)) :
    yearAt s pos = some y ∧ ∀ j, j < pos → yearAt s j = none := by
  obtain ⟨h1, _, h3⟩ := scanFrom_eq_some _ _ _ _ _ h
  exact ⟨h1, fun j hj => h3 j (Nat.zero_le j) hj⟩

theorem yearSearchPos_none {s : List Char} (h : yearSearchPos s = none) :
    ∀ j, yearAt s j = none := by
  intro j
  rcases Nat.lt_or_ge j s.length with hj | hj
  · exact scanFrom_eq_none _ _ _ h j (Nat.zero_le j) (by omega)
  · exact yearAt_ge hj

/-! ## Unfolding lemmas for `extract_month_year` -/

theorem extract_meta {text : List Char} {y m : Nat}
    (h : metaSearch text = some (y, m)) :
    extract_month_year text = (some m, some y, monthLabelOpt m) := by
  unfold extract_month_year
  rw [h]

theorem extract_heuristic {text : List Char} {num : Nat} {name : String} {pos : Nat}
    (hm : metaSearch text = none)
    (hs : monthSearch (blobOf text) = some (num, name, pos)) :
    extract_month_year text =
      (some num,
       (yearSearchPos (windowAround (blobOf text) pos)).map (fun x => x.2),
       some name) := by
  unfold extract_month_year
  rw [hm, hs]

theorem extract_nomatch {text : List Char} (hm : metaSearch text = none)
    (hs : monthSearch (blobOf text) = none) :
    extract_month_year text = (none, none, none) := by
  unfold extract_month_year
  rw [hm, hs]

theorem monthLabelOpt_ge {m : Nat} (h : 13 ≤ m) : monthLabelOpt m = none := by
  unfold monthLabelOpt
  split <;> first | rfl | omega

theorem monthLabelOpt_isSome {m : Nat} :
    (monthLabelOpt m).isSome = true ↔ 1 ≤ m ∧ m ≤ 12 := by
  constructor
  · intro h
    rcases Nat.lt_or_ge m 1 with hm | hm1
    · interval_cases m
      cases h
    · rcases Nat.lt_or_ge 12 m with hm2 | hm2
      · rw [monthLabelOpt_ge (by omega)] at h
        cases h
      · exact ⟨hm1, hm2⟩
  · rintro ⟨h1, h2⟩
    interval_cases m <;> rfl

theorem mem_monthList_label {j : Nat} {nm : String}
    (h : (j, nm) ∈ monthList) : monthLabelOpt j = some nm := by
  fin_cases h <;> rfl

/-! ## The scanner invariant -/

/-- Invariant maintained by the markup scanner: every accumulated chunk is
non-empty, and every title/heading chunk also appears in the all-text
buffer. -/
def ScanInv (st : ScanState) : Prop :=
  (∀ s ∈ st.all_text, s ≠ []) ∧
  (∀ s ∈ st.title_text, s ∈ st.all_text) ∧
  (∀ s ∈ st.h1_text, s ∈ st.all_text)

theorem handle_data_inv {st : ScanState} (hInv : ScanInv st) (data : List Char) :
    ScanInv (handle_data st data) := by
  obtain ⟨h1, h2, h3⟩ := hInv
  by_cases hs0 : stripChars data = []
  · simp only [handle_data]
    rw [if_pos hs0]
    exact ⟨h1, h2, h3⟩
  · simp only [handle_data]
    rw [if_neg hs0]
    refine ⟨?_, ?_, ?_⟩
    · intro s hs
      dsimp only at hs
      rcases List.mem_append.mp hs with hs | hs
      · exact h1 s hs
      · rw [List.mem_singleton] at hs
        subst hs
        exact hs0
    · intro s hs
      dsimp only at hs ⊢
      by_cases hin : st.in_title = true
      · rw [if_pos hin] at hs
        rcases List.mem_append.mp hs with hs | hs
        · exact List.mem_append.mpr (Or.inl (h2 s hs))
        · exact List.mem_append.mpr (Or.inr hs)
      · rw [if_neg hin] at hs
        exact List.mem_append.mpr (Or.inl (h2 s hs))
    · intro s hs
      dsimp only at hs ⊢
      by_cases hin : st.in_h1 = true
      · rw [if_pos hin] at hs
        rcases List.mem_append.mp hs with hs | hs
        · exact List.mem_append.mpr (Or.inl (h3 s hs))
        · exact List.mem_append.mpr (Or.inr hs)
      · rw [if_neg hin] at hs
        exact List.mem_append.mpr (Or.inl (h3 s hs))

theorem feedTok_inv {st : ScanState} (h : ScanInv st) :
    ∀ tok, ScanInv (feedTok st tok) := by
  intro tok
  cases tok with
  | startTag tag =>
    show ScanInv (handle_starttag st tag)
    unfold handle_starttag
    split
    · exact h
    · split
      · exact h
      · exact h
  | endTag tag =>
    show ScanInv (handle_endtag st tag)
    unfold handle_endtag
    split
    · exact h
    · split
      · exact h
      · exact h
  | text chunk => exact handle_data_inv h chunk

theorem feedList_inv : ∀ (toks : List Tok) (st : ScanState),
    ScanInv st → ScanInv (feedList st toks) := by
  intro toks
  induction toks with
  | nil => intro st h; exact h
  | cons t ts ih => intro st h; exact ih (feedTok st t) (feedTok_inv h t)

theorem feed_inv (text : List Char) : ScanInv (feed text) :=
  feedList_inv (tokenize text) initState
    ⟨fun s hs => absurd hs (List.not_mem_nil s),
     fun s hs => absurd hs (List.not_mem_nil s),
     fun s hs => absurd hs (List.not_mem_nil s)⟩

/-! ## The claims -/

/-- Document used as counterexample to claim C1: a valid metadata tag whose
declared month `13` is outside the table. -/
def c1CexDoc : List Char := "<meta name=\"report-month\" content=\"2025-13\">".data

/-- Claim C1 (counterexample): the claimed invariant "month and month_name
are either both present or both absent" fails on the metadata path.  For the
document `<meta name="report-month" content="2025-13">` the produced index
record has `month = 13` present and `month_name` absent (the code returns the
declared month number unconditionally and only the label lookup falls back to
`None`). -/
theorem claim1_counterexample :
    (buildRecord "r.html".data "r".data c1CexDoc).month = some 13 ∧
    (buildRecord "r.html".data "r".data c1CexDoc).month_name = none ∧
    (buildRecord "r.html".data "r".data c1CexDoc).year = some 2025 := by
  decide

/-- Claim C1 (amended): in every index record, `month_name` is present iff
`month` is present with a value in 1–12; and when `month` is absent,
`month_name` and `year` are absent as well.  (The metadata path can return an
out-of-range `month` — e.g. 13 — with `month_name` absent, so the two fields
are not always present/absent together.) -/
theorem claim1_amended (filename stem text : List Char) :
    ((buildRecord filename stem text).month_name.isSome = true ↔
      ∃ m, (buildRecord filename stem text).month = some m ∧ 1 ≤ m ∧ m ≤ 12) ∧
    ((buildRecord filename stem text).month = none →
      (buildRecord filename stem text).month_name = none ∧
      (buildRecord filename stem text).year = none) := by
  have hm : (buildRecord filename stem text).month = (extract_month_year text).1 := rfl
  have hn : (buildRecord filename stem text).month_name = (extract_month_year text).2.2 := rfl
  have hy : (buildRecord filename stem text).year = (extract_month_year text).2.1 := rfl
  rw [hm, hn, hy]
  cases hmeta : metaSearch text with
  | some ym =>
    obtain ⟨y, m⟩ := ym
    rw [extract_meta hmeta]
    constructor
    · simp only [Option.some.injEq]
      constructor
      · intro h
        obtain ⟨hm1, hm2⟩ := monthLabelOpt_isSome.mp h
        exact ⟨m, rfl, hm1, hm2⟩
      · rintro ⟨m2, rfl, hm1, hm2⟩
        exact monthLabelOpt_isSome.mpr ⟨hm1, hm2⟩
    · intro h
      cases h
  | none =>
    cases hms : monthSearch (blobOf text) with
    | none =>
      rw [extract_nomatch hmeta hms]
      constructor
      · simp
      · intro _
        exact ⟨rfl, rfl⟩
    | some tr =>
      obtain ⟨num, name, pos⟩ := tr
      rw [extract_heuristic hmeta hms]
      obtain ⟨hmem, _⟩ := msAux_eq_some monthList hms
      obtain ⟨hb1, hb2, _⟩ := monthList_facts (num, name) hmem
      constructor
      · simp only [Option.isSome_some, Option.some.injEq, true_iff]
        exact ⟨num, rfl, hb1, hb2⟩
      · intro h
        cases h

/-- Witness for claim C1 (amended) at a concrete input: an empty document
yields a record with absent month, hence absent month_name and year. -/
theorem claim1_witness :
    (buildRecord "a.html".data "a".data "".data).month_name = none ∧
    (buildRecord "a.html".data "a".data "".data).year = none :=
  (claim1_amended "a.html".data "a".data "".data).2 (by decide)

/-- Claim C2 (confirmed): whenever the structured-metadata search finds a
`report-month` tag declaring `(year, month)` with month in 1–12, the period
resolver returns exactly that year, that month and the canonical label for
that month.  The result is fully determined by the metadata match — the
statement places no condition whatsoever on the visible text, so any
heuristic-matchable month words elsewhere in the document are irrelevant, and
the heuristic search is never consulted on this path. -/
theorem claim2_meta_priority (text : List Char) (y m : Nat)
    (h : metaSearch text = some (y, m)) (h1 : 1 ≤ m) (h2 : m ≤ 12) :
    extract_month_year text = (some m, some y, monthLabelOpt m) ∧
    ∃ nm, monthLabelOpt m = some nm := by
  refine ⟨extract_meta h, ?_⟩
  obtain ⟨nm, hnm⟩ := Option.isSome_iff_exists.mp (monthLabelOpt_isSome.mpr ⟨h1, h2⟩)
  exact ⟨nm, hnm⟩

/-- Witness document for claim C2: a metadata tag declaring 2024-03 plus a
visible month word (`сентябрь`) and a nearby year that are both ignored. -/
def c2WitDoc : List Char :=
  "<meta name=\"report-month\" content=\"2024-03\"> сентябрь 2020".data

theorem claim2_witness :
    extract_month_year c2WitDoc = (some 3, some 2024, monthLabelOpt 3) ∧
    ∃ nm, monthLabelOpt 3 = some nm :=
  claim2_meta_priority c2WitDoc 2024 3 (by decide) (by decide) (by decide)

/-- Claim C3 (confirmed): for a document with no structured-metadata match,
if some month pattern (month `k`, 1–12) matches anywhere in the joined
visible-text blob, then the resolver selects the month with the *smallest*
month number whose pattern matches anywhere in the blob — patterns are tried
in ascending month-number order and the first match wins, i.e. selection is
by month-number priority, not by match position in the text — and the
selected month and its canonical label are what `extract_month_year`
returns. -/
theorem claim3_month_priority (text : List Char) (k : Nat)
    (hmeta : metaSearch text = none) (hk1 : 1 ≤ k) (hk2 : k ≤ 12)
    (hhit : MonthHit k (blobOf text)) :
    ∃ num name pos,
      monthSearch (blobOf text) = some (num, name, pos) ∧
      1 ≤ num ∧ num ≤ 12 ∧ num ≤ k ∧
      MonthHit num (blobOf text) ∧
      (∀ j, 1 ≤ j → j < num → ¬ MonthHit j (blobOf text)) ∧
      monthLabelOpt num = some name ∧
      (extract_month_year text).1 = some num ∧
      (extract_month_year text).2.2 = some name := by
  cases hres : monthSearch (blobOf text) with
  | none =>
    exfalso
    obtain ⟨nm, hmem⟩ := monthList_mem hk1 hk2
    have hrxk := msAux_eq_none monthList hres (k, nm) hmem
    obtain ⟨i, hi⟩ := hhit
    have := rxSearchPos_none hk1 hk2 hrxk i
    rw [hi] at this
    cases this
  | some tr =>
    obtain ⟨num, name, pos⟩ := tr
    obtain ⟨hmem, hrx⟩ := msAux_eq_some monthList hres
    obtain ⟨hb1, hb2, hlab⟩ := monthList_facts (num, name) hmem
    have hhit_num : MonthHit num (blobOf text) := ⟨pos, (rxSearchPos_some hrx).1⟩
    have hleast : ∀ j, 1 ≤ j → j < num → ¬ MonthHit j (blobOf text) := by
      intro j hj1 hj2 hhitj
      obtain ⟨nmj, hmemj⟩ := monthList_mem hj1 (by omega)
      have hrxj := msAux_least monthList monthList_pairwise hres (j, nmj) hmemj hj2
      obtain ⟨i, hi⟩ := hhitj
      have := rxSearchPos_none hj1 (by omega) hrxj i
      rw [hi] at this
      cases this
    have hnk : num ≤ k := by
      by_contra hlt
      push_neg at hlt
      exact hleast k hk1 hlt hhit
    have hex := extract_heuristic hmeta hres
    exact ⟨num, name, pos, rfl, hb1, hb2, hnk, hhit_num, hleast, hlab,
      by rw [hex], by rw [hex]⟩

/-- Witness document for claim C3: the blob "август март" contains month 8
at offset 0 and month 3 at offset 7; month 3 (the smaller number) wins even
though month 8 occurs earlier in the text. -/
def c3WitDoc : List Char := "август март".data

theorem claim3_witness :
    ∃ num name pos,
      monthSearch (blobOf c3WitDoc) = some (num, name, pos) ∧
      1 ≤ num ∧ num ≤ 12 ∧ num ≤ 3 ∧
      MonthHit num (blobOf c3WitDoc) ∧
      (∀ j, 1 ≤ j → j < num → ¬ MonthHit j (blobOf c3WitDoc)) ∧
      monthLabelOpt num = some name ∧
      (extract_month_year c3WitDoc).1 = some num ∧
      (extract_month_year c3WitDoc).2.2 = some name :=
  claim3_month_priority c3WitDoc 3 (by decide) (by decide) (by decide)
    ⟨7, by decide⟩

/-- Claim C4 (confirmed): on the heuristic path with a month match starting
at offset `pos` of the blob, the returned year is the numeric value of the
leftmost `20xx` digit sequence in the window of the blob from 40 characters
before `pos` to 40 characters after `pos`, clamped to the blob bounds
(`windowAround`); the second conjunct states that the year search yields the
*first* occurrence in that window, and the last two state that when no such
sequence occurs in the window the year is absent while month and month_name
are still returned. -/
theorem claim4_year_window (text : List Char) (num : Nat) (name : String)
    (pos : Nat) (hmeta : metaSearch text = none)
    (hs : monthSearch (blobOf text) = some (num, name, pos)) :
    extract_month_year text =
      (some num,
       (yearSearchPos (windowAround (blobOf text) pos)).map (fun x => x.2),
       some name) ∧
    (∀ p y, yearSearchPos (windowAround (blobOf text) pos) = some (p, y) →
       yearAt (windowAround (blobOf text) pos) p = some y ∧
       ∀ j, j < p → yearAt (windowAround (blobOf text) pos) j = none) ∧
    (yearSearchPos (windowAround (blobOf text) pos) = none →
       ∀ j, yearAt (windowAround (blobOf text) pos) j = none) ∧
    (yearSearchPos (windowAround (blobOf text) pos) = none →
       extract_month_year text = (some num, none, some name)) := by
  refine ⟨extract_heuristic hmeta hs, ?_, ?_, ?_⟩
  · intro p y hp
    exact yearSearchPos_some hp
  · intro hnone
    exact yearSearchPos_none hnone
  · intro hnone
    rw [extract_heuristic hmeta hs, hnone]
    rfl

/-- Witness document for claim C4: a month word with no `20xx` token
anywhere — month and label resolve, year is absent. -/
def c4WitDoc : List Char := "март без года".data

theorem claim4_witness :
    extract_month_year c4WitDoc = (some 3, none, some "Март") :=
  (claim4_year_window c4WitDoc 3 "Март" 0 (by decide) (by decide)).2.2.2
    (by decide)

/-- Document used as counterexample to claim C5: the title
`Report:Ivanov` has *no* whitespace after the separator (and no whitespace
anywhere), so under the claim's reading — separator *immediately followed by
whitespace* — no trailing pattern matches and the full title should be
returned verbatim. -/
def c5CexDoc : List Char := "<title>Report:Ivanov</title>".data

/-- Claim C5 (counterexample): the source regex is `[:\-–]\s*(…)$` — the
whitespace after the separator is *optional* (`\s*`), not required.  For the
title `Report:Ivanov`, which contains no whitespace character at all (last
conjunct), the claim predicts the verbatim title, but the resolver returns
the captured segment `Ivanov`. -/
theorem claim5_counterexample :
    extract_name_from_html c5CexDoc = some "Ivanov".data ∧
    titleOf c5CexDoc = "Report:Ivanov".data ∧
    "Ivanov".data ≠ "Report:Ivanov".data ∧
    (∀ c ∈ titleOf c5CexDoc, isSpaceChar c = false) := by
  decide

/-- Claim C5 (amended): for a document with a non-empty trimmed title `t`,
if `t` matches the trailing pattern — a separator (`:`, `-` or en-dash)
followed by *zero or more* whitespace characters, then a token starting with
an uppercase Cyrillic or Latin letter, then a run of characters excluding
`|<>()` anchored to the end of the title, captured segment at least 3
characters (`TrailingDecomp`) — then name resolution returns the trimmed
captured segment of the leftmost such match; if no position of `t` matches
the pattern, the full trimmed title is returned verbatim. -/
theorem claim5_amended (text t : List Char)
    (ht : titleOf text = t) (hne : t ≠ []) :
    ((∃ i cap, TrailingDecomp t i cap) →
      ∃ i cap, TrailingDecomp t i cap ∧
        (∀ j cap2, TrailingDecomp t j cap2 → i ≤ j) ∧
        extract_name_from_html text = some (stripChars cap)) ∧
    ((∀ i cap, ¬ TrailingDecomp t i cap) →
      extract_name_from_html text = some t) := by
  subst ht
  constructor
  · rintro ⟨i0, cap0, hdec0⟩
    cases hsearch : searchTrail (titleOf text) with
    | none =>
      exfalso
      have h1 := decomp_trailMatchAt hdec0
      rw [searchTrail_none hsearch i0] at h1
      cases h1
    | some cap =>
      obtain ⟨i, hi, hleast⟩ := searchTrail_some hsearch
      refine ⟨i, cap, trailMatchAt_some_decomp hi, ?_, ?_⟩
      · intro j cap2 hdec2
        by_contra hlt
        push_neg at hlt
        have := hleast j hlt
        rw [decomp_trailMatchAt hdec2] at this
        cases this
      · unfold extract_name_from_html
        rw [if_neg hne, hsearch]
  · intro hnone
    cases hsearch : searchTrail (titleOf text) with
    | some cap =>
      exfalso
      obtain ⟨i, hi, _⟩ := searchTrail_some hsearch
      exact hnone i cap (trailMatchAt_some_decomp hi)
    | none =>
      unfold extract_name_from_html
      rw [if_neg hne, hsearch]

/-- Witness document for claim C5 (amended): title with a separator followed
by one space and a capitalized segment. -/
def c5WitDoc : List Char := "<title>Report: Smith John</title>".data

theorem claim5_witness :
    ∃ i cap, TrailingDecomp "Report: Smith John".data i cap ∧
      (∀ j cap2, TrailingDecomp "Report: Smith John".data j cap2 → i ≤ j) ∧
      extract_name_from_html c5WitDoc = some (stripChars cap) :=
  (claim5_amended c5WitDoc "Report: Smith John".data (by decide) (by decide)).1
    ⟨6, "Smith John".data, ':', [' '], 'S', "mith John".data,
      by decide, by decide, by decide, by decide, by decide, by decide, by decide⟩

/-- Claim C6 (counterexample): the stem `" "` (a single space) contains a
character that is not an underscore, hyphen or period, yet the resolved
display name after the caller's whitespace-collapsing post-step is the empty
string: the space survives filename humanization and is then collapsed and
stripped away. -/
theorem claim6_counterexample :
    (∃ c ∈ (" ".data : List Char), isSepChar c = false) ∧
    resolveName "".data " ".data = [] := by
  decide

/-- Claim C6 (amended): if the filename stem contains at least one character
that is neither a separator (underscore, hyphen, period) *nor whitespace*,
then the resolved display name — after the caller's whitespace-collapsing and
trimming post-step — is non-empty, through every branch of the resolver
cascade (title, trailing-segment capture, heading, filename fallback). -/
theorem claim6_amended (text stem : List Char)
    (h : ∃ c ∈ stem, isSepChar c = false ∧ isSpaceChar c = false) :
    resolveName text stem ≠ [] := by
  obtain ⟨c, hcmem, hcsep, hcws⟩ := h
  unfold resolveName
  cases he : extract_name_from_html text with
  | some s =>
    obtain ⟨c2, hc2mem, hc2ws⟩ := extract_name_mem he
    have hs : s ≠ [] := List.ne_nil_of_mem hc2mem
    show collapseWs (if s = [] then humanize_from_filename stem else s) ≠ []
    rw [if_neg hs]
    exact collapseWs_ne_nil_of_mem hc2mem hc2ws
  | none =>
    show collapseWs (pyOr none (humanize_from_filename stem)) ≠ []
    obtain ⟨part, hpart, hcin⟩ := partsAux_mem hcsep stem [] (Or.inl hcmem)
    cases part with
    | nil => cases hcin
    | cons p rest =>
      rcases List.mem_cons.mp hcin with rfl | hmem
      · have hmem2 : upperChar c ∈ pyCapitalize (c :: rest) :=
          List.mem_cons_self _ _
        have hws2 : isSpaceChar (upperChar c) = false := by
          rw [isSpaceChar_upperChar]
          exact hcws
        exact collapseWs_ne_nil_of_mem
          (mem_joinSp (List.mem_map_of_mem pyCapitalize hpart) hmem2) hws2
      · have hmem2 : lowerChar c ∈ pyCapitalize (p :: rest) := by
          show lowerChar c ∈ upperChar p :: rest.map lowerChar
          exact List.mem_cons_of_mem _ (List.mem_map_of_mem lowerChar hmem)
        have hws2 : isSpaceChar (lowerChar c) = false := by
          rw [isSpaceChar_lowerChar]
          exact hcws
        exact collapseWs_ne_nil_of_mem
          (mem_joinSp (List.mem_map_of_mem pyCapitalize hpart) hmem2) hws2

theorem claim6_witness : resolveName "".data "x".data ≠ [] :=
  claim6_amended "".data "x".data ⟨'x', by decide, by decide, by decide⟩

/-- Modelled from the spec (the wording of claim C7): capitalize only each
segment's *first letter*, leaving the remaining characters unchanged. -/
def specCapitalizeFirst : List Char → List Char
  | [] => []
  | c :: r => upperChar c :: r

/-- Modelled from the spec (the wording of claim C7): split the stem on runs
of underscore/hyphen/period, capitalize each non-empty segment's first
letter, join with single spaces. -/
def specHumanize (stem : List Char) : List Char :=
  joinSp ((partsOf stem).map specCapitalizeFirst)

/-- Claim C7 (counterexample): Python's `str.capitalize()` upper-cases the
first character *and lower-cases the rest*, while the claim's description
("capitalizing each resulting non-empty segment's first letter") leaves the
rest unchanged.  For the stem `ABC_2025` (with empty title/heading buffers)
the code produces `Abc 2025`, not the claim's `ABC 2025`. -/
theorem claim7_counterexample :
    resolveName "".data "ABC_2025".data = "Abc 2025".data ∧
    specHumanize "ABC_2025".data = "ABC 2025".data ∧
    "Abc 2025".data ≠ "ABC 2025".data ∧
    (feed "".data).title_text = [] ∧ (feed "".data).h1_text = [] := by
  decide

/-- Claim C7 (amended): when both the title and heading text buffers are
empty, the name is derived from the filename stem by splitting on runs of
underscore, hyphen or period, applying Python `capitalize` to each resulting
non-empty segment (first character upper-cased, remaining characters
lower-cased) and joining with single spaces; every produced segment is
non-empty and separator-free; in particular stem `report_2025_07` yields
`Report 2025 07`. -/
theorem claim7_amended (text stem : List Char)
    (h1 : (feed text).title_text = []) (h2 : (feed text).h1_text = []) :
    resolveName text stem = collapseWs (joinSp ((partsOf stem).map pyCapitalize)) ∧
    (∀ part ∈ partsOf stem, part ≠ [] ∧ part.all (fun c => !isSepChar c) = true) ∧
    resolveName text "report_2025_07".data = "Report 2025 07".data := by
  have hnone : extract_name_from_html text = none := by
    unfold extract_name_from_html
    have ht : titleOf text = [] := by
      unfold titleOf
      rw [h1]
      rfl
    have hh : h1Of text = [] := by
      unfold h1Of
      rw [h2]
      rfl
    simp [ht, hh]
  refine ⟨?_, ?_, ?_⟩
  · unfold resolveName
    rw [hnone]
    rfl
  · intro part hp
    exact partsAux_wf stem [] (by intro y hy; cases hy) part hp
  · unfold resolveName
    rw [hnone]
    decide

theorem claim7_witness :
    resolveName "".data "report_2025_07".data = "Report 2025 07".data :=
  (claim7_amended "".data "report_2025_07".data rfl rfl).2.2

/-- Claim C8 (confirmed): the markup scanner is a total function — `feed` is
defined for *every* input string, including malformed markup (unterminated
tags are dropped by the tokenizer, unknown tags become ordinary tag events,
unbalanced nesting only toggles flags), and always produces a `ScanState`
holding the three text buffers; in this embedding totality is witnessed by
`feed` being a Lean function, and the theorem states the structural
guarantees of the produced buffers: every accumulated chunk is non-empty and
every title/heading chunk also occurs in the all-text buffer. -/
theorem claim8_scanner_total (text : List Char) :
    (∀ s ∈ (feed text).all_text, s ≠ []) ∧
    (∀ s ∈ (feed text).title_text, s ∈ (feed text).all_text) ∧
    (∀ s ∈ (feed text).h1_text, s ∈ (feed text).all_text) :=
  feed_inv text

theorem claim8_witness :
    ("hi".data : List Char) ≠ [] :=
  (claim8_scanner_total "<p> hi </p>".data).1 "hi".data (by decide)

/-- Document with the meta attributes in reversed order
(`content` before `name`). -/
def c9RevDoc : List Char :=
  "<meta content=\"2025-07\" name=\"report-month\">август 2031".data

/-- Document with an extra attribute between `name` and `content`. -/
def c9MidDoc : List Char :=
  "<meta name=\"report-month\" id=\"x\" content=\"2025-07\">сентябрь".data

/-- Claim C9 (confirmed): the structured-metadata matcher only recognizes a
tag in which `name="report-month"` comes immediately after `<meta` separated
by whitespace alone, and `content=` comes immediately after the name
attribute's closing quote separated by whitespace alone — so the `name`
attribute must precede `content` with nothing but whitespace between them
(first conjunct, a structural consequence of any successful match).  A tag
with the attributes in the opposite order, or with another attribute between
`name` and `content`, is not recognized, and period resolution for such a
document falls through to the heuristic visible-text search (second and
third conjuncts: the reversed-order document resolves from its visible text
`август 2031`, ignoring the declared `2025-07`; the intervening-attribute
document resolves from `сентябрь`). -/
theorem claim9_meta_attr_order :
    (∀ (text : List Char) (i y m : Nat), metaMatchAt text i = some (y, m) →
      ∃ w1 w2, 1 ≤ w1 ∧ 1 ≤ w2 ∧
        ciStartsWith "<meta".data (text.drop i) = true ∧
        (((text.drop i).drop 5).take w1).all isSpaceChar = true ∧
        ciStartsWith "name=".data ((text.drop i).drop (5 + w1)) = true ∧
        ciStartsWith "report-month".data ((text.drop i).drop (5 + w1 + 5 + 1)) = true ∧
        ((((text.drop i).drop (5 + w1 + 5 + 1 + 12 + 1)).take w2).all isSpaceChar) = true ∧
        ciStartsWith "content=".data ((text.drop i).drop (5 + w1 + 5 + 1 + 12 + 1 + w2)) = true) ∧
    (metaSearch c9RevDoc = none ∧
      extract_month_year c9RevDoc = (some 8, some 2031, some "Август")) ∧
    (metaSearch c9MidDoc = none ∧
      extract_month_year c9MidDoc = (some 9, none, some "Сентябрь")) :=
  ⟨fun _ _ _ _ h => metaMatchAt_structure h,
   ⟨by decide, by decide⟩, ⟨by decide, by decide⟩⟩

/-- Witness document for claim C9: a well-formed tag that the matcher does
recognize, instantiating the structural characterization at offset 0. -/
def c9WitDoc : List Char :=
  "<meta name=\"report-month\" content=\"2024-01\">".data

theorem claim9_witness :
    ∃ w1 w2, 1 ≤ w1 ∧ 1 ≤ w2 ∧
      ciStartsWith "<meta".data (c9WitDoc.drop 0) = true ∧
      (((c9WitDoc.drop 0).drop 5).take w1).all isSpaceChar = true ∧
      ciStartsWith "name=".data ((c9WitDoc.drop 0).drop (5 + w1)) = true ∧
      ciStartsWith "report-month".data ((c9WitDoc.drop 0).drop (5 + w1 + 5 + 1)) = true ∧
      ((((c9WitDoc.drop 0).drop (5 + w1 + 5 + 1 + 12 + 1)).take w2).all isSpaceChar) = true ∧
      ciStartsWith "content=".data ((c9WitDoc.drop 0).drop (5 + w1 + 5 + 1 + 12 + 1 + w2)) = true :=
  claim9_meta_attr_order.1 c9WitDoc 0 2024 1 (by decide)

/-- Claim C10 (confirmed): if a data chunk with non-empty stripped content
arrives while the scanner is simultaneously inside a `title` and an `h1`
element, the stripped chunk is appended to *both* the title and the heading
buffer — the two insideness flags are independent — and exactly once to the
all-text buffer. -/
theorem claim10_data_both_buffers (st : ScanState) (data : List Char)
    (h1 : st.in_title = true) (h2 : st.in_h1 = true)
    (h3 : stripChars data ≠ []) :
    handle_data st data =
      { st with
        all_text := st.all_text ++ [stripChars data]
        title_text := st.title_text ++ [stripChars data]
        h1_text := st.h1_text ++ [stripChars data] } := by
  simp only [handle_data]
  rw [if_neg h3, h1, h2]
  simp

/-- Parser state with both insideness flags set, as after the malformed
prefix `<title><h1>`. -/
def c10St : ScanState :=
  { in_title := true, in_h1 := true, title_text := [], h1_text := [], all_text := [] }

theorem claim10_witness :
    handle_data c10St " x ".data =
      { c10St with
        all_text := ["x".data]
        title_text := ["x".data]
        h1_text := ["x".data] } := by
  rw [claim10_data_both_buffers c10St " x ".data rfl rfl (by decide)]
  decide
